import Mathlib

/-!
Verification of the georef point-cloud georeferencing library.

Shallow embedding of the core of the `georef` repository:

* `src/imu_gnss.rs` — trajectory storage and interpolation
  (`ImuGnss::interpolate_trajectory`);
* `src/rotation.rs` — rotation-order token parsing (`FromStr for
  RotationMatrix`);
* `src/georef.rs` — the SOCS axis map (`SocsMap`), the fixed calibration
  stage of `Georeferencer::georeference_point`, and the chunked
  processing loop of `Georeferencer::georeference`;
* `src/pos.rs` — the per-line record parsing of `read_pos_file` (the
  same loop body appears in `ImuGnss::read_from`).

Finite `f64` values are modelled as rationals (`ℚ`); a non-finite IEEE
result (NaN or an infinity) is modelled as `none` in `Option ℚ`.  In the
embedded code the only operation that can produce a non-finite value
from finite operands is the interpolation-factor division when the two
bracketing sample times are equal (`0.0 / 0.0`), and every IEEE
operation combining a finite value with a non-finite one yields a
non-finite value, so the `Option`-propagation model is faithful for the
reachable computations.
-/

/-- The `usize` modulus: the Rust code stores the trajectory in a `Vec` and
indexes it with `usize` values. -/
def usizeMod : ℕ := 2 ^ 64

/-- Release-mode Rust `n - 1` on `usize`: wraps around at zero.  This is
the subtraction in the guard `hint >= self.points.len() - 1` of
`ImuGnss::interpolate_trajectory` (src/imu_gnss.rs line 98), which
underflows when the trajectory is empty. -/
def rustSub1 (n : ℕ) : ℕ := (n + (usizeMod - 1)) % usizeMod

/-- One trajectory sample (`ImuGnssPoint`, src/imu_gnss.rs lines
134-143).  All seven fields are finite `f64` values read from the
trajectory file, modelled as rationals.  `Radians` is a transparent
newtype over `f64` in the source and is dropped here. -/
structure ImuGnssPoint where
  time : ℚ
  latitude : ℚ
  longitude : ℚ
  height : ℚ
  roll : ℚ
  pitch : ℚ
  heading : ℚ
deriving DecidableEq, Repr

instance : Inhabited ImuGnssPoint := ⟨⟨0, 0, 0, 0, 0, 0, 0⟩⟩

/-- A possibly-non-finite `f64` value: `none` models NaN/infinity. -/
abbrev FQ := Option ℚ

/-- Addition `c + x` for finite `c`: a finite plus a non-finite value is
non-finite. -/
def fqAdd (c : ℚ) (x : FQ) : FQ := x.map (fun v => c + v)

/-- Multiplication `c * x` for finite `c`: multiplying a non-finite value by any finite
value (including `0`, since `0 * NaN = NaN` and `0 * ∞ = NaN`) is
non-finite. -/
def fqScale (c : ℚ) (x : FQ) : FQ := x.map (fun v => c * v)

/-- Division `a / b` for finite operands: division by zero yields a non-finite
value (`0/0 = NaN`, `a/0 = ±∞`). -/
def fdivQ (a b : ℚ) : FQ := if b = 0 then none else some (a / b)

/-- The interpolated point returned by `interpolate_trajectory`: its
fields are computed with `f64` arithmetic involving the factor, so they
can be non-finite.  The `height` field is computed in `f32` in the
source (`factor as f32`); the cast is the identity in the real-valued
model. -/
structure InterpPoint where
  time : FQ
  latitude : FQ
  longitude : FQ
  height : FQ
  roll : FQ
  pitch : FQ
  heading : FQ
deriving DecidableEq, Repr

/-- Lifts an exactly-represented sample to an interpolation result. -/
def toF (p : ImuGnssPoint) : InterpPoint :=
  ⟨some p.time, some p.latitude, some p.longitude, some p.height,
   some p.roll, some p.pitch, some p.heading⟩

/-- The linear interpolation of every field between `first` and `second`
(src/imu_gnss.rs lines 118-128): `first.f + (second.f - first.f) * factor`. -/
def mkInterp (first second : ImuGnssPoint) (factor : FQ) : InterpPoint :=
  { time := fqAdd first.time (fqScale (second.time - first.time) factor)
    latitude := fqAdd first.latitude (fqScale (second.latitude - first.latitude) factor)
    longitude := fqAdd first.longitude (fqScale (second.longitude - first.longitude) factor)
    height := fqAdd first.height (fqScale (second.height - first.height) factor)
    roll := fqAdd first.roll (fqScale (second.roll - first.roll) factor)
    pitch := fqAdd first.pitch (fqScale (second.pitch - first.pitch) factor)
    heading := fqAdd first.heading (fqScale (second.heading - first.heading) factor) }

/-- The two error variants reachable from `interpolate_trajectory`
(src/error.rs): `OutsideOfImuGnssRecords` and
`NonmonotonicImuGnssRecords`. -/
inductive IErr
  | outside
  | nonmonotonic
deriving DecidableEq, Repr

/-- Result of one `interpolate_trajectory` call.  `panicked` models a
Rust panic (out-of-bounds `Vec` indexing); `outOfFuel` is the
fuel-exhaustion sentinel of the embedding and is unreachable for the
fuel used by `interpolate_trajectory` (see
`interpolate_trajectory_ne_outOfFuel`). -/
inductive IResult
  | ok (p : InterpPoint) (hint : ℕ)
  | err (e : IErr)
  | panicked
  | outOfFuel
deriving DecidableEq, Repr

/-- The search loop of `ImuGnss::interpolate_trajectory`
(src/imu_gnss.rs lines 97-130), with an explicit fuel parameter for the
`loop`.  The guard `hint >= self.points.len() - 1` uses wrapping `usize`
subtraction (`rustSub1`); the two `Vec` indexings panic when out of
bounds, which can happen only when the trajectory is empty. -/
def interpolateAux (points : List ImuGnssPoint) (time : ℚ) :
    ℕ → ℕ → IResult
  | 0, _ => .outOfFuel
  | fuel + 1, hint =>
    if rustSub1 points.length ≤ hint then .err .outside
    else
      match points[hint]?, points[hint + 1]? with
      | some first, some second =>
        if second.time < first.time then .err .nonmonotonic
        else if time < first.time then
          if 0 < hint then interpolateAux points time fuel (hint - 1)
          else .err .outside
        else if second.time < time then interpolateAux points time fuel (hint + 1)
        else
          .ok (mkInterp first second
                (fdivQ (time - first.time) (second.time - first.time))) hint
      | _, _ => .panicked

/-- The function `ImuGnss::interpolate_trajectory` (src/imu_gnss.rs lines 93-131).
The fuel `hint + points.length + 2` always suffices: the search walk
moves monotonically after its first step. -/
def interpolate_trajectory (points : List ImuGnssPoint) (time : ℚ)
    (hint : ℕ) : IResult :=
  interpolateAux points time (hint + points.length + 2) hint

/-- Strictly increasing sample times (adjacent pairs). -/
def TimesStrictMono (points : List ImuGnssPoint) : Prop :=
  List.Chain' (fun a b => a.time < b.time) points

instance : DecidableRel (fun a b : ImuGnssPoint => a.time < b.time) :=
  fun a b => inferInstanceAs (Decidable (a.time < b.time))

instance (points : List ImuGnssPoint) : Decidable (TimesStrictMono points) :=
  inferInstanceAs
    (Decidable (List.Chain' (fun a b : ImuGnssPoint => a.time < b.time) points))

theorem timesStrictMono_adj {points : List ImuGnssPoint}
    (h : TimesStrictMono points) {j : ℕ} {pj pj1 : ImuGnssPoint}
    (h1 : points[j]? = some pj) (h2 : points[j + 1]? = some pj1) :
    pj.time < pj1.time := by
  rw [List.getElem?_eq_some] at h1 h2
  obtain ⟨hj, rfl⟩ := h1
  obtain ⟨hj1, rfl⟩ := h2
  have := List.chain'_iff_get.mp h j (by omega)
  simpa [List.get_eq_getElem] using this

theorem timesStrictMono_le {points : List ImuGnssPoint}
    (h : TimesStrictMono points) :
    ∀ (d i : ℕ) {pi pj : ImuGnssPoint}, points[i]? = some pi →
      points[i + d]? = some pj → pi.time ≤ pj.time := by
  intro d
  induction d with
  | zero =>
    intro i pi pj h1 h2
    rw [Nat.add_zero, h1] at h2
    simp_all
  | succ d ih =>
    intro i pi pj h1 h2
    have hlt : i + d < points.length := by
      obtain ⟨hh, -⟩ := List.getElem?_eq_some.mp h2
      omega
    have hmid : points[i + d]? = some points[i + d] :=
      List.getElem?_eq_getElem hlt
    have hle := ih i h1 hmid
    have hadj : points[i + d + 1]? = some pj := by
      simpa [Nat.add_assoc] using h2
    have := timesStrictMono_adj h hmid hadj
    exact le_trans hle (le_of_lt this)

theorem timesStrictMono_lt {points : List ImuGnssPoint}
    (h : TimesStrictMono points) {i j : ℕ} {pi pj : ImuGnssPoint}
    (hij : i < j) (h1 : points[i]? = some pi) (h2 : points[j]? = some pj) :
    pi.time < pj.time := by
  have hlt : i + 1 ≤ j := hij
  have hj : j < points.length := by
    obtain ⟨hh, -⟩ := List.getElem?_eq_some.mp h2
    omega
  have hi1 : points[i + 1]? = some points[i + 1] :=
    List.getElem?_eq_getElem (by omega)
  have hstep := timesStrictMono_adj h h1 hi1
  obtain ⟨d, rfl⟩ : ∃ d, j = (i + 1) + d := ⟨j - (i + 1), by omega⟩
  exact lt_of_lt_of_le hstep (timesStrictMono_le h d (i + 1) hi1 h2)

theorem rustSub1_eq_sub {n : ℕ} (h1 : 1 ≤ n) (h2 : n ≤ 2 ^ 64) :
    rustSub1 n = n - 1 := by
  have : n + (usizeMod - 1) = (n - 1) + usizeMod := by
    have : 1 ≤ usizeMod := Nat.one_le_two_pow
    omega
  rw [rustSub1, this, Nat.add_mod_right, Nat.mod_eq_of_lt]
  have : usizeMod = 2 ^ 64 := rfl
  omega

theorem mkInterp_factor_zero (p q : ImuGnssPoint) :
    mkInterp p q (some 0) = toF p := by
  simp [mkInterp, toF, fqAdd, fqScale]

theorem mkInterp_factor_one (p q : ImuGnssPoint) :
    mkInterp p q (some 1) = toF q := by
  simp [mkInterp, toF, fqAdd, fqScale]

theorem mkInterp_none (p q : ImuGnssPoint) :
    mkInterp p q none = ⟨none, none, none, none, none, none, none⟩ := by
  simp [mkInterp, fqAdd, fqScale]

/-- Postcondition of a successful interpolation: the returned hint is a
bracket index whose two samples enclose the query time, and the returned
point is the linear interpolation over that bracket. -/
theorem interp_ok_bracket (points : List ImuGnssPoint) (time : ℚ) :
    ∀ fuel hint p j, interpolateAux points time fuel hint = .ok p j →
      ∃ pj pj1, points[j]? = some pj ∧ points[j + 1]? = some pj1 ∧
        pj.time ≤ time ∧ time ≤ pj1.time ∧
        p = mkInterp pj pj1 (fdivQ (time - pj.time) (pj1.time - pj.time)) := by
  intro fuel
  induction fuel with
  | zero => intro hint p j h; simp [interpolateAux] at h
  | succ fuel ih =>
    intro hint p j h
    rw [interpolateAux] at h
    by_cases hg : rustSub1 points.length ≤ hint
    · simp [hg] at h
    · rw [if_neg hg] at h
      cases hf : points[hint]? with
      | none => rw [hf] at h; cases hs : points[hint + 1]? <;> simp [hs] at h
      | some first =>
        cases hs : points[hint + 1]? with
        | none => rw [hf, hs] at h; simp at h
        | some second =>
          rw [hf, hs] at h
          simp only at h
          by_cases hmono : second.time < first.time
          · simp [hmono] at h
          · rw [if_neg hmono] at h
            by_cases hlo : time < first.time
            · rw [if_pos hlo] at h
              by_cases hpos : 0 < hint
              · rw [if_pos hpos] at h
                exact ih (hint - 1) p j h
              · simp [hpos] at h
            · rw [if_neg hlo] at h
              by_cases hhi : second.time < time
              · rw [if_pos hhi] at h
                exact ih (hint + 1) p j h
              · rw [if_neg hhi] at h
                obtain ⟨hp, hj⟩ : mkInterp first second
                    (fdivQ (time - first.time) (second.time - first.time)) = p
                    ∧ hint = j := by
                  cases h; exact ⟨rfl, rfl⟩
                subst hj
                exact ⟨first, second, hf, hs, not_lt.mp hlo, not_lt.mp hhi, hp.symm⟩

/-- If the query time is not below the starting bracket's left sample,
the search never moves left, so a successful lookup returns a hint at
least as large as the starting hint. -/
theorem interp_ok_hint_mono (points : List ImuGnssPoint) (time : ℚ) :
    ∀ fuel hint p j,
      (∀ first, points[hint]? = some first → ¬time < first.time) →
      interpolateAux points time fuel hint = .ok p j → hint ≤ j := by
  intro fuel
  induction fuel with
  | zero => intro hint p j _ h; simp [interpolateAux] at h
  | succ fuel ih =>
    intro hint p j hstart h
    rw [interpolateAux] at h
    by_cases hg : rustSub1 points.length ≤ hint
    · simp [hg] at h
    · rw [if_neg hg] at h
      cases hf : points[hint]? with
      | none => rw [hf] at h; cases hs : points[hint + 1]? <;> simp [hs] at h
      | some first =>
        cases hs : points[hint + 1]? with
        | none => rw [hf, hs] at h; simp at h
        | some second =>
          rw [hf, hs] at h
          simp only at h
          by_cases hmono : second.time < first.time
          · simp [hmono] at h
          · rw [if_neg hmono] at h
            rw [if_neg (hstart first hf)] at h
            by_cases hhi : second.time < time
            · rw [if_pos hhi] at h
              have : hint + 1 ≤ j := by
                refine ih (hint + 1) p j ?_ h
                intro f hf'
                rw [hs] at hf'
                cases hf'
                exact not_lt.mpr (le_of_lt hhi)
              omega
            · rw [if_neg hhi] at h
              cases h
              exact le_refl _

/-- Right walk of the search: starting at a bracket whose left sample is
not above the query time, with the query time bounded by the last
sample, the loop accepts a bracket at or to the right of the start. -/
theorem interp_right (points : List ImuGnssPoint) (time : ℚ)
    (hmono : TimesStrictMono points) (hlen : points.length ≤ 2 ^ 64)
    {plast : ImuGnssPoint}
    (hlast : points[points.length - 1]? = some plast) (hub : time ≤ plast.time) :
    ∀ fuel hint first, points.length - hint ≤ fuel →
      hint + 1 < points.length →
      points[hint]? = some first → first.time ≤ time →
      ∃ j pj pj1, hint ≤ j ∧ points[j]? = some pj ∧
        points[j + 1]? = some pj1 ∧ pj.time ≤ time ∧ time ≤ pj1.time ∧
        interpolateAux points time fuel hint =
          .ok (mkInterp pj pj1 (fdivQ (time - pj.time) (pj1.time - pj.time))) j := by
  intro fuel
  induction fuel with
  | zero => intro hint first hfuel hhint hf hft; omega
  | succ fuel ih =>
    intro hint first hfuel hhint hf hft
    have hg : ¬rustSub1 points.length ≤ hint := by
      rw [rustSub1_eq_sub (by omega) hlen]
      omega
    have hsec : points[hint + 1]? = some points[hint + 1] :=
      List.getElem?_eq_getElem hhint
    have hmadj : first.time < (points[hint + 1]).time :=
      timesStrictMono_adj hmono hf hsec
    by_cases hhi : (points[hint + 1]).time < time
    · have hne : hint + 1 ≠ points.length - 1 := by
        intro he
        have h2 : points[points.length - 1]? = some (points[hint + 1]) := by
          rw [← he]
          exact hsec
        rw [hlast] at h2
        have heqp : plast = points[hint + 1] := Option.some_inj.mp h2
        exact absurd hhi (not_lt.mpr (heqp ▸ hub))
      have hhint2 : hint + 1 + 1 < points.length := by omega
      obtain ⟨j, pj, pj1, hj, hh1, hh2, hh3, hh4, heq⟩ :=
        ih (hint + 1) (points[hint + 1]) (by omega) hhint2 hsec (le_of_lt hhi)
      refine ⟨j, pj, pj1, by omega, hh1, hh2, hh3, hh4, ?_⟩
      rw [interpolateAux, if_neg hg, hf, hsec]
      simp only
      rw [if_neg (not_lt.mpr (le_of_lt hmadj)), if_neg (not_lt.mpr hft),
        if_pos hhi]
      exact heq
    · refine ⟨hint, first, points[hint + 1], le_refl _, hf, hsec, hft,
        not_lt.mp hhi, ?_⟩
      rw [interpolateAux, if_neg hg, hf, hsec]
      simp only
      rw [if_neg (not_lt.mpr (le_of_lt hmadj)), if_neg (not_lt.mpr hft),
        if_neg hhi]

/-- Left walk of the search: starting at a bracket whose right sample is
not below the query time, with the query time bounded below by the first
sample, the loop accepts a bracket at or to the left of the start. -/
theorem interp_left (points : List ImuGnssPoint) (time : ℚ)
    (hmono : TimesStrictMono points) (hlen : points.length ≤ 2 ^ 64)
    {p0 : ImuGnssPoint} (h0 : points[0]? = some p0) (hlb : p0.time ≤ time) :
    ∀ fuel hint second, hint + 1 ≤ fuel → hint + 1 < points.length →
      points[hint + 1]? = some second → time ≤ second.time →
      ∃ j pj pj1, j ≤ hint ∧ points[j]? = some pj ∧
        points[j + 1]? = some pj1 ∧ pj.time ≤ time ∧ time ≤ pj1.time ∧
        interpolateAux points time fuel hint =
          .ok (mkInterp pj pj1 (fdivQ (time - pj.time) (pj1.time - pj.time))) j := by
  intro fuel
  induction fuel with
  | zero => intro hint second hfuel; omega
  | succ fuel ih =>
    intro hint second hfuel hhint hs hts
    have hg : ¬rustSub1 points.length ≤ hint := by
      rw [rustSub1_eq_sub (by omega) hlen]
      omega
    have hlt0 : hint < points.length := by omega
    have hf : points[hint]? = some points[hint] :=
      List.getElem?_eq_getElem hlt0
    have hmadj : (points[hint]).time < second.time :=
      timesStrictMono_adj hmono hf hs
    by_cases hlo : time < (points[hint]).time
    · have hpos : 0 < hint := by
        rcases Nat.eq_zero_or_pos hint with hz | hp
        · exfalso
          have h00 : points[hint]? = some p0 := by
            rw [hz]
            exact h0
          rw [hf] at h00
          have hpe : points[hint] = p0 := Option.some_inj.mp h00
          rw [hpe] at hlo
          exact absurd hlo (not_lt.mpr hlb)
        · exact hp
      obtain ⟨j, pj, pj1, hj, hh1, hh2, hh3, hh4, heq⟩ :=
        ih (hint - 1) (points[hint]) (by omega) (by omega)
          (by
            have he1 : hint - 1 + 1 = hint := by omega
            rw [he1]
            exact hf)
          (le_of_lt hlo)
      refine ⟨j, pj, pj1, by omega, hh1, hh2, hh3, hh4, ?_⟩
      rw [interpolateAux, if_neg hg, hf, hs]
      simp only
      rw [if_neg (not_lt.mpr (le_of_lt hmadj)), if_pos hlo, if_pos hpos]
      exact heq
    · refine ⟨hint, points[hint], second, le_refl _, hf, hs, not_lt.mp hlo,
        hts, ?_⟩
      rw [interpolateAux, if_neg hg, hf, hs]
      simp only
      rw [if_neg (not_lt.mpr (le_of_lt hmadj)), if_neg hlo,
        if_neg (not_lt.mpr hts)]

/-- Full search correctness for strictly increasing trajectories: from
any valid starting hint, a query time within the trajectory's time span
is resolved to a bracket enclosing it. -/
theorem interp_search (points : List ImuGnssPoint) (time : ℚ)
    (hmono : TimesStrictMono points) (hlen : points.length ≤ 2 ^ 64)
    (hint : ℕ) (hhint : hint + 1 < points.length)
    {p0 plast : ImuGnssPoint} (h0 : points[0]? = some p0)
    (hlast : points[points.length - 1]? = some plast)
    (hlb : p0.time ≤ time) (hub : time ≤ plast.time) :
    ∃ j pj pj1, points[j]? = some pj ∧ points[j + 1]? = some pj1 ∧
      pj.time ≤ time ∧ time ≤ pj1.time ∧
      interpolate_trajectory points time hint =
        .ok (mkInterp pj pj1 (fdivQ (time - pj.time) (pj1.time - pj.time))) j := by
  have hlt0 : hint < points.length := by omega
  have hf : points[hint]? = some points[hint] :=
    List.getElem?_eq_getElem hlt0
  by_cases hlo : time < (points[hint]).time
  · -- first step moves left; afterwards the walk stays left
    have hg : ¬rustSub1 points.length ≤ hint := by
      rw [rustSub1_eq_sub (by omega) hlen]
      omega
    have hsec : points[hint + 1]? = some points[hint + 1] :=
      List.getElem?_eq_getElem hhint
    have hmadj : (points[hint]).time < (points[hint + 1]).time :=
      timesStrictMono_adj hmono hf hsec
    have hpos : 0 < hint := by
      rcases Nat.eq_zero_or_pos hint with hz | hp
      · exfalso
        have h00 : points[hint]? = some p0 := by
          rw [hz]
          exact h0
        rw [hf] at h00
        have hpe : points[hint] = p0 := Option.some_inj.mp h00
        rw [hpe] at hlo
        exact absurd hlo (not_lt.mpr hlb)
      · exact hp
    obtain ⟨j, pj, pj1, hj, hh1, hh2, hh3, hh4, heq⟩ :=
      interp_left points time hmono hlen h0 hlb
        (hint + points.length + 1) (hint - 1) (points[hint]) (by omega)
        (by omega)
        (by
          have he1 : hint - 1 + 1 = hint := by omega
          rw [he1]
          exact hf)
        (le_of_lt hlo)
    refine ⟨j, pj, pj1, hh1, hh2, hh3, hh4, ?_⟩
    rw [interpolate_trajectory, interpolateAux, if_neg hg, hf, hsec]
    simp only
    rw [if_neg (not_lt.mpr (le_of_lt hmadj)), if_pos hlo, if_pos hpos]
    exact heq
  · obtain ⟨j, pj, pj1, hj, hh1, hh2, hh3, hh4, heq⟩ :=
      interp_right points time hmono hlen hlast hub
        (hint + points.length + 2) hint (points[hint]) (by omega) hhint hf
        (not_lt.mp hlo)
    exact ⟨j, pj, pj1, hh1, hh2, hh3, hh4, heq⟩

/-- For a strictly increasing trajectory, querying the exact time of
sample `i` from any valid hint succeeds and reproduces sample `i`
exactly: the search stops either at bracket `[i, i+1]` with factor `0`
or at bracket `[i-1, i]` with factor `1`, and in exact (real) arithmetic
both reproduce the sample's fields. -/
theorem interp_exact_sample (points : List ImuGnssPoint)
    (hmono : TimesStrictMono points) (hlen : points.length ≤ 2 ^ 64)
    {i : ℕ} {pi : ImuGnssPoint} (hpi : points[i]? = some pi)
    (hint : ℕ) (hhint : hint + 1 < points.length) :
    ∃ j, interpolate_trajectory points pi.time hint = .ok (toF pi) j := by
  have hi : i < points.length := by
    obtain ⟨hh, -⟩ := List.getElem?_eq_some.mp hpi
    exact hh
  have hlen1 : 0 < points.length := by omega
  have h0 : points[0]? = some points[0] := List.getElem?_eq_getElem hlen1
  have hlastlt : points.length - 1 < points.length := by omega
  have hlast : points[points.length - 1]? = some points[points.length - 1] :=
    List.getElem?_eq_getElem hlastlt
  have hlb : (points[0]).time ≤ pi.time := by
    rcases Nat.eq_zero_or_pos i with hz | hp
    · have : points[i]? = some points[0] := by rw [hz]; exact h0
      rw [hpi] at this
      rw [Option.some_inj.mp this]
    · exact le_of_lt (timesStrictMono_lt hmono hp h0 hpi)
  have hub : pi.time ≤ (points[points.length - 1]).time := by
    rcases Nat.lt_or_ge i (points.length - 1) with hltl | hgel
    · exact le_of_lt (timesStrictMono_lt hmono hltl hpi hlast)
    · have he : i = points.length - 1 := by omega
      have : points[points.length - 1]? = some pi := by rw [← he]; exact hpi
      rw [hlast] at this
      rw [← Option.some_inj.mp this]
  obtain ⟨j, pj, pj1, hh1, hh2, hh3, hh4, heq⟩ :=
    interp_search points pi.time hmono hlen hint hhint h0 hlast hlb hub
  have hadj : pj.time < pj1.time := timesStrictMono_adj hmono hh1 hh2
  have hji : j ≤ i := by
    by_contra hc
    push_neg at hc
    exact absurd (timesStrictMono_lt hmono hc hpi hh1) (not_lt.mpr hh3)
  have hij : i ≤ j + 1 := by
    by_contra hc
    push_neg at hc
    exact absurd (timesStrictMono_lt hmono hc hh2 hpi) (not_lt.mpr hh4)
  refine ⟨j, ?_⟩
  rw [heq]
  rcases Nat.eq_or_lt_of_le hji with hji' | hjlt
  · -- bracket [i, i+1], factor 0
    have hpj : pj = pi := by
      rw [hji'] at hh1
      rw [hpi] at hh1
      exact (Option.some_inj.mp hh1).symm
    subst hpj
    have hdne : pj1.time - pj.time ≠ 0 := by
      intro hzero
      have : pj1.time = pj.time := by linarith
      exact absurd (this ▸ hadj) (lt_irrefl _)
    have hfactor : fdivQ (pj.time - pj.time) (pj1.time - pj.time) = some 0 := by
      rw [fdivQ, if_neg hdne, sub_self, zero_div]
    rw [hfactor, mkInterp_factor_zero]
  · -- bracket [i-1, i], factor 1
    have hii : i = j + 1 := by omega
    have hpj1 : pj1 = pi := by
      rw [hii] at hpi
      rw [hpi] at hh2
      exact (Option.some_inj.mp hh2).symm
    subst hpj1
    have hdne : pj1.time - pj.time ≠ 0 := by
      intro hzero
      have : pj1.time = pj.time := by linarith
      exact absurd (this ▸ hadj) (lt_irrefl _)
    have hfactor : fdivQ (pj1.time - pj.time) (pj1.time - pj.time) = some 1 := by
      rw [fdivQ, if_neg hdne, div_self hdne]
    rw [hfactor, mkInterp_factor_one]

/-- Trajectory with non-decreasing (but not strictly increasing) sample
times: two samples share time `5` but have different latitudes. -/
def c1pts : List ImuGnssPoint :=
  [⟨0, 0, 0, 0, 0, 0, 0⟩, ⟨5, 2, 0, 0, 0, 0, 0⟩, ⟨5, 3, 0, 0, 0, 0, 0⟩]

/-- C1, counterexample: `c1pts` has non-decreasing times, and querying
exactly `points[2].time = 5` from the valid hint `0` succeeds but
returns the interpolation of bracket `[0, 1]` with factor `1` — sample
`1`'s fields (latitude `2`), not sample `2`'s (latitude `3`).  So the
claim "returns `points[i]` unchanged, factor 0" fails for a merely
non-decreasing trajectory. -/
theorem c1_counterexample :
    List.Chain' (fun a b : ImuGnssPoint => a.time ≤ b.time) c1pts ∧
    (c1pts.getD 2 default).time = 5 ∧
    interpolate_trajectory c1pts 5 0 =
      .ok ⟨some 5, some 2, some 0, some 0, some 0, some 0, some 0⟩ 0 ∧
    (⟨some 5, some 2, some 0, some 0, some 0, some 0, some 0⟩ : InterpPoint) ≠
      toF (c1pts.getD 2 default) := by
  refine ⟨?_, by norm_num [c1pts], ?_, by norm_num [c1pts, toF]⟩
  · norm_num [c1pts, List.chain'_cons, List.chain'_singleton]
  · norm_num [c1pts, interpolate_trajectory, interpolateAux, rustSub1,
      usizeMod, fdivQ, mkInterp, fqAdd, fqScale]

/-- C1 (amended): for a trajectory with *strictly increasing* sample
times, querying the exact time of sample `i` from any valid hint
succeeds and reproduces sample `i`'s fields exactly (in exact real
arithmetic): the search stops either at bracket `[i, i+1]` with factor
`0` or at bracket `[i-1, i]` with factor `1`. -/
theorem c1_exact_sample_strict (points : List ImuGnssPoint)
    (hmono : TimesStrictMono points) (hlen : points.length ≤ 2 ^ 64)
    {i : ℕ} {pi : ImuGnssPoint} (hpi : points[i]? = some pi)
    (hint : ℕ) (hhint : hint + 1 < points.length) :
    ∃ j, interpolate_trajectory points pi.time hint = .ok (toF pi) j :=
  interp_exact_sample points hmono hlen hpi hint hhint

/-- Witness for C1 at a concrete trajectory. -/
theorem c1_witness :
    ∃ j, interpolate_trajectory
      [⟨0, 0, 0, 0, 0, 0, 0⟩, ⟨1, 7, 0, 0, 0, 0, 0⟩, ⟨2, 0, 0, 0, 0, 0, 0⟩]
      ((⟨1, 7, 0, 0, 0, 0, 0⟩ : ImuGnssPoint).time) 0 =
      .ok (toF ⟨1, 7, 0, 0, 0, 0, 0⟩) j :=
  c1_exact_sample_strict
    [⟨0, 0, 0, 0, 0, 0, 0⟩, ⟨1, 7, 0, 0, 0, 0, 0⟩, ⟨2, 0, 0, 0, 0, 0, 0⟩]
    (by norm_num [TimesStrictMono, List.chain'_cons, List.chain'_singleton])
    (by norm_num)
    (show ([⟨0, 0, 0, 0, 0, 0, 0⟩, ⟨1, 7, 0, 0, 0, 0, 0⟩,
      ⟨2, 0, 0, 0, 0, 0, 0⟩] : List ImuGnssPoint)[1]? =
      some ⟨1, 7, 0, 0, 0, 0, 0⟩ from rfl) 0 (by norm_num)

/-- Two-sample trajectory with equal times and distinct latitudes. -/
def c4pts : List ImuGnssPoint :=
  [⟨5, 1, 0, 0, 0, 0, 0⟩, ⟨5, 2, 0, 0, 0, 0, 0⟩]

/-- C4, counterexample: with equal bracketing times and the query equal
to the shared time, the division `(time - first.time) / (second.time -
first.time)` *is* evaluated with a zero denominator (`0.0 / 0.0`, NaN in
IEEE arithmetic), so every field of the returned point is non-finite —
not the first bracket sample and not a factor-`0` result.  There is no
guard in the code. -/
theorem c4_counterexample :
    interpolate_trajectory c4pts 5 0 =
      .ok ⟨none, none, none, none, none, none, none⟩ 0 ∧
    (⟨none, none, none, none, none, none, none⟩ : InterpPoint) ≠
      toF ⟨5, 1, 0, 0, 0, 0, 0⟩ := by
  constructor
  · norm_num [c4pts, interpolate_trajectory, interpolateAux, rustSub1,
      usizeMod, fdivQ, mkInterp, fqAdd, fqScale]
  · decide

/-- C4 (amended): the divide-by-zero case is *not* guarded.  For any
two-sample trajectory whose samples share one time, querying that time
evaluates the factor division with zero denominator, and every field of
the returned interpolated point is non-finite (NaN in the IEEE
semantics of the source). -/
theorem c4_divide_by_zero_unguarded (p1 p2 : ImuGnssPoint)
    (heq : p1.time = p2.time) :
    interpolate_trajectory [p1, p2] p1.time 0 =
      .ok ⟨none, none, none, none, none, none, none⟩ 0 := by
  show interpolateAux [p1, p2] p1.time (0 + 2 + 2) 0 = _
  have hfe : 0 + 2 + 2 = 3 + 1 := by omega
  rw [hfe, interpolateAux]
  have hg : ¬rustSub1 (List.length [p1, p2]) ≤ 0 := by
    have h2 : List.length [p1, p2] = 2 := rfl
    rw [h2, rustSub1_eq_sub (by norm_num) (by norm_num)]
    omega
  rw [if_neg hg]
  simp only [List.getElem?_cons_zero, List.getElem?_cons_succ]
  rw [if_neg (by rw [heq]; exact lt_irrefl _)]
  rw [if_neg (lt_irrefl _)]
  rw [if_neg (by rw [← heq]; exact lt_irrefl _)]
  have hden : p2.time - p1.time = 0 := by rw [heq, sub_self]
  rw [hden]
  rw [show fdivQ (p1.time - p1.time) 0 = none from if_pos rfl]
  rw [mkInterp_none]

/-- Witness for C4 at a concrete equal-time trajectory. -/
theorem c4_witness :
    interpolate_trajectory [⟨5, 1, 0, 0, 0, 0, 0⟩, ⟨5, 2, 0, 0, 0, 0, 0⟩]
      ((⟨5, 1, 0, 0, 0, 0, 0⟩ : ImuGnssPoint).time) 0 =
      .ok ⟨none, none, none, none, none, none, none⟩ 0 :=
  c4_divide_by_zero_unguarded ⟨5, 1, 0, 0, 0, 0, 0⟩ ⟨5, 2, 0, 0, 0, 0, 0⟩ rfl

/-- C5, counterexample: on an *empty* trajectory the call does not
return `OutsideOfImuGnssRecords` — the guard's `usize` subtraction
`self.points.len() - 1` wraps (or overflows in a debug build) and the
subsequent `self.points[hint]` indexing panics. -/
theorem c5_counterexample :
    interpolate_trajectory ([] : List ImuGnssPoint) 0 0 = .panicked ∧
    IResult.panicked ≠ .err .outside := by
  constructor
  · decide
  · decide

/-- C5 (amended): for every trajectory of length exactly `1`, every
query time and every hint, `interpolate_trajectory` returns the
`OutsideOfImuGnssRecords` error (for length `0` it panics instead, see
the counterexample). -/
theorem c5_singleton_outside (points : List ImuGnssPoint) (time : ℚ)
    (hint : ℕ) (h1 : points.length = 1) :
    interpolate_trajectory points time hint = .err .outside := by
  obtain ⟨p, rfl⟩ := List.length_eq_one.mp h1
  show interpolateAux [p] time (hint + 1 + 2) hint = _
  have hfe : hint + 1 + 2 = (hint + 2) + 1 := by omega
  rw [hfe, interpolateAux]
  have hg : rustSub1 (List.length [p]) ≤ hint := by
    have h1' : List.length [p] = 1 := rfl
    rw [h1', rustSub1_eq_sub (le_refl 1) (by norm_num)]
    omega
  rw [if_pos hg]

/-- Witness for C5 at a concrete one-sample trajectory. -/
theorem c5_witness :
    interpolate_trajectory [(⟨9, 1, 2, 3, 4, 5, 6⟩ : ImuGnssPoint)] 42 7 =
      .err .outside :=
  c5_singleton_outside [⟨9, 1, 2, 3, 4, 5, 6⟩] 42 7 rfl

/-- C6: whenever `interpolate_trajectory` returns successfully, the
returned hint `h` is a valid bracket index: `h + 1 < points.length`
(hence `0 ≤ h < length - 1`), for every input trajectory, query time and
starting hint. -/
theorem c6_hint_bound (points : List ImuGnssPoint) (time : ℚ) (hint : ℕ)
    (p : InterpPoint) (h : ℕ)
    (hok : interpolate_trajectory points time hint = .ok p h) :
    h + 1 < points.length := by
  obtain ⟨pj, pj1, -, h2, -, -, -⟩ :=
    interp_ok_bracket points time (hint + points.length + 2) hint p h hok
  obtain ⟨hh, -⟩ := List.getElem?_eq_some.mp h2
  omega

/-- Witness for C6 at a concrete successful interpolation. -/
theorem c6_witness :
    0 + 1 < List.length
      [(⟨0, 0, 0, 0, 0, 0, 0⟩ : ImuGnssPoint), ⟨1, 0, 0, 0, 0, 0, 0⟩] :=
  c6_hint_bound [⟨0, 0, 0, 0, 0, 0, 0⟩, ⟨1, 0, 0, 0, 0, 0, 0⟩] 0 0
    ⟨some 0, some 0, some 0, some 0, some 0, some 0, some 0⟩ 0
    (by norm_num [interpolate_trajectory, interpolateAux, rustSub1,
      usizeMod, fdivQ, mkInterp, fqAdd, fqScale])

/-- Strictly increasing four-sample trajectory for the C8
counterexample. -/
def c8pts : List ImuGnssPoint :=
  [⟨0, 0, 0, 0, 0, 0, 0⟩, ⟨1, 0, 0, 0, 0, 0, 0⟩,
   ⟨2, 0, 0, 0, 0, 0, 0⟩, ⟨3, 0, 0, 0, 0, 0, 0⟩]

/-- C8, counterexample: with a strictly increasing trajectory and
non-decreasing queries `1/2 ≤ 5/2`, the first call (hint `0`) returns
hint `0`, and the second call — passed that returned hint — returns
hint `2`: the bracket index is adjusted twice in one call, so "at most
one adjustment / returned hint differs by at most one" fails. -/
theorem c8_counterexample :
    TimesStrictMono c8pts ∧ (1 / 2 : ℚ) ≤ 5 / 2 ∧
    interpolate_trajectory c8pts (1 / 2) 0 =
      .ok ⟨some (1 / 2), some 0, some 0, some 0, some 0, some 0, some 0⟩ 0 ∧
    interpolate_trajectory c8pts (5 / 2) 0 =
      .ok ⟨some (5 / 2), some 0, some 0, some 0, some 0, some 0, some 0⟩ 2 ∧
    ¬((2 : ℕ) ≤ 0 + 1) := by
  refine ⟨?_, by norm_num, ?_, ?_, by omega⟩
  · norm_num [c8pts, TimesStrictMono, List.chain'_cons, List.chain'_singleton]
  · norm_num [c8pts, interpolate_trajectory, interpolateAux, rustSub1,
      usizeMod, fdivQ, mkInterp, fqAdd, fqScale]
  · norm_num [c8pts, interpolate_trajectory, interpolateAux, rustSub1,
      usizeMod, fdivQ, mkInterp, fqAdd, fqScale]

/-- C8 (amended): for a strictly increasing trajectory and
non-decreasing query times, when each call is passed the previous
call's returned hint the bracket index never moves backward: the hint
returned by the second call is at least the hint passed into it (a
single call may, however, advance it by more than one). -/
theorem c8_hint_never_decreases (points : List ImuGnssPoint)
    (hmono : TimesStrictMono points) (q1 q2 : ℚ) (h0 hA hB : ℕ)
    (p1 p2 : InterpPoint)
    (hc1 : interpolate_trajectory points q1 h0 = .ok p1 hA)
    (hq : q1 ≤ q2)
    (hc2 : interpolate_trajectory points q2 hA = .ok p2 hB) :
    hA ≤ hB := by
  obtain ⟨pj, pj1, h1, -, h3, -, -⟩ :=
    interp_ok_bracket points q1 (h0 + points.length + 2) h0 p1 hA hc1
  refine interp_ok_hint_mono points q2 (hA + points.length + 2) hA p2 hB
    ?_ hc2
  intro first hf
  rw [h1] at hf
  have : pj = first := Option.some_inj.mp hf
  subst this
  exact not_lt.mpr (le_trans h3 hq)

/-- Witness for C8: the two concrete calls of the counterexample
trajectory, with `0 ≤ 2` as the instantiated conclusion. -/
theorem c8_witness : (0 : ℕ) ≤ 2 :=
  c8_hint_never_decreases c8pts
    (by norm_num [c8pts, TimesStrictMono, List.chain'_cons,
      List.chain'_singleton])
    (1 / 2) (5 / 2) 0 0 2
    ⟨some (1 / 2), some 0, some 0, some 0, some 0, some 0, some 0⟩
    ⟨some (5 / 2), some 0, some 0, some 0, some 0, some 0, some 0⟩
    (by norm_num [c8pts, interpolate_trajectory, interpolateAux, rustSub1,
      usizeMod, fdivQ, mkInterp, fqAdd, fqScale])
    (by norm_num)
    (by norm_num [c8pts, interpolate_trajectory, interpolateAux, rustSub1,
      usizeMod, fdivQ, mkInterp, fqAdd, fqScale])

/-- Fuel adequacy, right regime: once the query time is at or above the
current bracket's left sample, the walk only moves right and
`points.length - hint` steps of fuel suffice. -/
theorem interpAux_fuel_right (points : List ImuGnssPoint) (time : ℚ) :
    ∀ fuel hint first, points[hint]? = some first → ¬time < first.time →
      points.length - hint ≤ fuel →
      interpolateAux points time fuel hint ≠ .outOfFuel := by
  intro fuel
  induction fuel with
  | zero =>
    intro hint first hf _ hfuel
    obtain ⟨hh, -⟩ := List.getElem?_eq_some.mp hf
    omega
  | succ fuel ih =>
    intro hint first hf hge hfuel
    rw [interpolateAux]
    by_cases hg : rustSub1 points.length ≤ hint
    · simp [hg]
    · rw [if_neg hg, hf]
      cases hs : points[hint + 1]? with
      | none => simp
      | some second =>
        simp only
        by_cases hmono : second.time < first.time
        · simp [hmono]
        · rw [if_neg hmono, if_neg hge]
          by_cases hhi : second.time < time
          · rw [if_pos hhi]
            refine ih (hint + 1) second hs (not_lt.mpr (le_of_lt hhi)) ?_
            obtain ⟨hh, -⟩ := List.getElem?_eq_some.mp hs
            omega
          · rw [if_neg hhi]
            simp

/-- Fuel adequacy, left regime: once the query time is strictly below
the current bracket's right sample, the walk only moves left and
`hint + 1` steps of fuel suffice. -/
theorem interpAux_fuel_left (points : List ImuGnssPoint) (time : ℚ) :
    ∀ fuel hint second, points[hint + 1]? = some second →
      time < second.time → hint + 1 ≤ fuel →
      interpolateAux points time fuel hint ≠ .outOfFuel := by
  intro fuel
  induction fuel with
  | zero => intro hint second _ _ hfuel; omega
  | succ fuel ih =>
    intro hint second hs hlt hfuel
    rw [interpolateAux]
    by_cases hg : rustSub1 points.length ≤ hint
    · simp [hg]
    · rw [if_neg hg]
      have hlt1 : hint < points.length := by
        obtain ⟨hh, -⟩ := List.getElem?_eq_some.mp hs
        omega
      have hf : points[hint]? = some points[hint] :=
        List.getElem?_eq_getElem hlt1
      rw [hf, hs]
      simp only
      by_cases hmono : second.time < (points[hint]).time
      · simp [hmono]
      · rw [if_neg hmono]
        by_cases hlo : time < (points[hint]).time
        · rw [if_pos hlo]
          by_cases hpos : 0 < hint
          · rw [if_pos hpos]
            refine ih (hint - 1) (points[hint]) ?_ hlo (by omega)
            have he1 : hint - 1 + 1 = hint := by omega
            rw [he1]
            exact hf
          · simp [hpos]
        · rw [if_neg hlo, if_neg (not_lt.mpr (le_of_lt hlt))]
          simp

/-- The fuel `hint + points.length + 2` used by
`interpolate_trajectory` always suffices: the embedded loop never
reaches the `outOfFuel` sentinel, on any input. -/
theorem interpolate_trajectory_ne_outOfFuel
    (points : List ImuGnssPoint) (time : ℚ) (hint : ℕ) :
    interpolate_trajectory points time hint ≠ .outOfFuel := by
  rw [interpolate_trajectory]
  have hfe : hint + points.length + 2 = (hint + points.length + 1) + 1 := by
    omega
  rw [hfe, interpolateAux]
  by_cases hg : rustSub1 points.length ≤ hint
  · simp [hg]
  · rw [if_neg hg]
    cases hf : points[hint]? with
    | none => cases hs : points[hint + 1]? <;> simp
    | some first =>
      cases hs : points[hint + 1]? with
      | none => simp
      | some second =>
        simp only
        by_cases hmono : second.time < first.time
        · simp [hmono]
        · rw [if_neg hmono]
          by_cases hlo : time < first.time
          · rw [if_pos hlo]
            by_cases hpos : 0 < hint
            · rw [if_pos hpos]
              refine interpAux_fuel_left points time
                (hint + points.length + 1) (hint - 1) first ?_ hlo (by omega)
              have he1 : hint - 1 + 1 = hint := by omega
              rw [he1]
              exact hf
            · simp [hpos]
          · rw [if_neg hlo]
            by_cases hhi : second.time < time
            · rw [if_pos hhi]
              refine interpAux_fuel_right points time
                (hint + points.length + 1) (hint + 1) second hs
                (not_lt.mpr (le_of_lt hhi)) ?_
              omega
            · rw [if_neg hhi]
              simp

/-- Elementary rotation axis (`RotationMatrixType`, src/rotation.rs
lines 57-62): `R1` = X, `R2` = Y, `R3` = Z. -/
inductive RotationMatrixType
  | R1
  | R2
  | R3
deriving DecidableEq, Repr

/-- Angle selector (`RotationMatrixAngle`, src/rotation.rs lines
74-79). -/
inductive RotationMatrixAngle
  | Roll
  | Pitch
  | Yaw
deriving DecidableEq, Repr

/-- Parsed rotation token (`RotationMatrix`, src/rotation.rs lines
39-44). -/
structure RotationMatrix where
  type_ : RotationMatrixType
  negative : Bool
  angle : RotationMatrixAngle
deriving DecidableEq, Repr

/-- The error `Error::ParseRotate(String)` (src/error.rs line 30); strings are
modelled as character lists. -/
inductive RotParseErr
  | parseRotate (s : List Char)
deriving DecidableEq, Repr

/-- Rust `str::split` at a single-character pattern, on character
lists: `"r1(roll".split('(')` = `["r1", "roll"]`, `"".split('(')` =
`[""]`. -/
def splitOnChar (c : Char) : List Char → List (List Char)
  | [] => [[]]
  | x :: xs =>
    match splitOnChar c xs with
    | [] => [[x]]
    | y :: ys => if x = c then [] :: y :: ys else (x :: y) :: ys

/-- Rust `str::ends_with(")")`. -/
def endsWithRParen (l : List Char) : Bool := l.getLast? == some ')'

/-- Rust `str::starts_with("-")`. -/
def beginsWithDash (l : List Char) : Bool := l.head? == some '-'

/-- Rust `str::trim_left_matches("-")`: drops every leading `'-'`. -/
def dropLeadingDashes (l : List Char) : List Char := l.dropWhile (· = '-')

/-- Rust `str::trim_right_matches(")")`: drops every trailing `')'`. -/
def dropTrailingRParens (l : List Char) : List Char :=
  (l.reverse.dropWhile (· = ')')).reverse

deriving instance DecidableEq for Except

/-- Parsing `FromStr for RotationMatrixType` (src/rotation.rs lines 108-118). -/
def rotationMatrixTypeFromChars (s : List Char) :
    Except RotParseErr RotationMatrixType :=
  if s = ['r', '1'] ∨ s = ['R', '1'] ∨ s = ['1'] then .ok .R1
  else if s = ['r', '2'] ∨ s = ['R', '2'] ∨ s = ['2'] then .ok .R2
  else if s = ['r', '3'] ∨ s = ['R', '3'] ∨ s = ['3'] then .ok .R3
  else .error (.parseRotate s)

/-- Parsing `FromStr for RotationMatrixAngle` (src/rotation.rs lines
120-130). -/
def rotationMatrixAngleFromChars (s : List Char) :
    Except RotParseErr RotationMatrixAngle :=
  if s = ['r', 'o', 'l', 'l'] then .ok .Roll
  else if s = ['p', 'i', 't', 'c', 'h'] then .ok .Pitch
  else if s = ['y', 'a', 'w'] then .ok .Yaw
  else .error (.parseRotate s)

/-- Parsing `FromStr for RotationMatrix` (src/rotation.rs lines 91-106): split
at `'('`; require exactly two pieces with the second ending in `')'`;
the sign is a leading `'-'` of the *second* piece (inside the
parentheses); the axis is parsed from the first piece and the angle
name from the second piece with leading dashes and trailing `')'`
stripped. -/
def rotationMatrixFromChars (s : List Char) :
    Except RotParseErr RotationMatrix :=
  match splitOnChar '(' s with
  | [v0, v1] =>
    if endsWithRParen v1 = false then .error (.parseRotate s)
    else
      match rotationMatrixTypeFromChars v0 with
      | .error e => .error e
      | .ok ty =>
        match rotationMatrixAngleFromChars
            (dropTrailingRParens (dropLeadingDashes v1)) with
        | .error e => .error e
        | .ok an => .ok ⟨ty, beginsWithDash v1, an⟩
  | _ => .error (.parseRotate s)

/-- C3, counterexample: `"-r1(roll)"` does **not** parse to
(axis X, negative, roll) — the code reads the sign from inside the
parenthesized group, so the leading-dash form fails with
`ParseRotate("-r1")` (the axis token `"-r1"` is invalid). -/
theorem c3_counterexample :
    rotationMatrixFromChars ['-', 'r', '1', '(', 'r', 'o', 'l', 'l', ')'] =
      .error (.parseRotate ['-', 'r', '1']) ∧
    rotationMatrixFromChars ['-', 'r', '1', '(', 'r', 'o', 'l', 'l', ')'] ≠
      .ok ⟨.R1, true, .Roll⟩ := by
  constructor
  · decide
  · decide

/-- C3 (amended): `"r3(yaw)"` parses to (axis Z, positive, yaw); the
negative form is written inside the parentheses — `"r1(-roll)"` parses
to (axis X, negative, roll) — while `"-r1(roll)"` fails with the
parse-rotation error; `"r4(roll)"`, `"r1(rollz)"`, `"r1(roll"`
(unbalanced) and `"r1[roll)"` all fail with the parse-rotation
error. -/
theorem c3_rotation_parsing :
    rotationMatrixFromChars ['r', '3', '(', 'y', 'a', 'w', ')'] =
      .ok ⟨.R3, false, .Yaw⟩ ∧
    rotationMatrixFromChars ['r', '1', '(', '-', 'r', 'o', 'l', 'l', ')'] =
      .ok ⟨.R1, true, .Roll⟩ ∧
    rotationMatrixFromChars ['-', 'r', '1', '(', 'r', 'o', 'l', 'l', ')'] =
      .error (.parseRotate ['-', 'r', '1']) ∧
    rotationMatrixFromChars ['r', '4', '(', 'r', 'o', 'l', 'l', ')'] =
      .error (.parseRotate ['r', '4']) ∧
    rotationMatrixFromChars ['r', '1', '(', 'r', 'o', 'l', 'l', 'z', ')'] =
      .error (.parseRotate ['r', 'o', 'l', 'l', 'z']) ∧
    rotationMatrixFromChars ['r', '1', '(', 'r', 'o', 'l', 'l'] =
      .error (.parseRotate ['r', '1', '(', 'r', 'o', 'l', 'l']) ∧
    rotationMatrixFromChars ['r', '1', '[', 'r', 'o', 'l', 'l', ')'] =
      .error (.parseRotate ['r', '1', '[', 'r', 'o', 'l', 'l', ')']) := by
  refine ⟨?_, ?_, ?_, ?_, ?_, ?_, ?_⟩ <;> decide

/-- One SOCS axis token mapped to its signed unit vector
(src/georef.rs lines 104-111); `none` models the `Err(Error::SocsMap)`
arm for an invalid token. -/
def socsAxisVec : List Char → Option (Fin 3 → ℚ)
  | ['x'] => some ![1, 0, 0]
  | ['-', 'x'] => some ![-1, 0, 0]
  | ['y'] => some ![0, 1, 0]
  | ['-', 'y'] => some ![0, -1, 0]
  | ['z'] => some ![0, 0, 1]
  | ['-', 'z'] => some ![0, 0, -1]
  | _ => none

/-- The error `Error::SocsMap(String)` (src/error.rs line 34). -/
inductive SocsErr
  | socsMap (s : List Char)
deriving DecidableEq, Repr

/-- The constructor `SocsMap::new` (src/georef.rs lines 100-115): starts from the
identity and overwrites column `i` with the vector of token `i`
(`set_col`), failing at the first invalid token; since all three
columns are overwritten the result is exactly the column matrix of the
three token vectors. -/
def socsMapNew (x y z : List Char) :
    Except SocsErr (Matrix (Fin 3) (Fin 3) ℚ) :=
  match socsAxisVec x with
  | none => .error (.socsMap x)
  | some c0 =>
    match socsAxisVec y with
    | none => .error (.socsMap y)
    | some c1 =>
      match socsAxisVec z with
      | none => .error (.socsMap z)
      | some c2 => .ok (Matrix.of fun r c => ![c0, c1, c2] c r)

/-- The method `SocsMap::vec3` (src/georef.rs lines 117-119):
`Vec3::new(p.x, p.y, p.z) * self.rotation_matrix`.  In nalgebra,
`Vec3 * Rot3` is the row-vector–matrix product
`(v * M)_j = Σ_i v_i · M_{i,j}`, i.e. `Matrix.vecMul`. -/
def socsVec3 (m : Matrix (Fin 3) (Fin 3) ℚ) (p : Fin 3 → ℚ) : Fin 3 → ℚ :=
  Matrix.vecMul p m

/-- The fixed calibration stage of `Georeferencer::georeference_point`
(src/georef.rs line 199): `boresight_matrix * socs_map.vec3(point) +
lever_arm`, where `Rot3 * Vec3` is the ordinary matrix-vector
product. -/
def applyCalibration (boresight m : Matrix (Fin 3) (Fin 3) ℚ)
    (leverArm p : Fin 3 → ℚ) : Fin 3 → ℚ :=
  boresight.mulVec (socsVec3 m p) + leverArm

/-- Modelled from the spec: the claimed calibration formula
`boresight · (socsMap · p) + leverArm` with the SOCS matrix applied to
`p` as a *left* matrix-vector product. -/
def claimedCalibration (boresight m : Matrix (Fin 3) (Fin 3) ℚ)
    (leverArm p : Fin 3 → ℚ) : Fin 3 → ℚ :=
  boresight.mulVec (m.mulVec p) + leverArm

/-- The column matrix built from the tokens `y`, `z`, `x`. -/
def c2M : Matrix (Fin 3) (Fin 3) ℚ :=
  Matrix.of ![![0, 0, 1], ![1, 0, 0], ![0, 1, 0]]

/-- C2, counterexample: for the valid SOCS map `(x → "y", y → "z",
z → "x")`, identity boresight and zero lever arm, the code maps
`(1, 2, 3)` to `(2, 3, 1)` (row-vector product), while the claimed
left matrix-vector product `socsMap · p` gives `(3, 1, 2)`. -/
theorem c2_counterexample :
    socsMapNew ['y'] ['z'] ['x'] = .ok c2M ∧
    applyCalibration 1 c2M 0 ![1, 2, 3] = ![2, 3, 1] ∧
    claimedCalibration 1 c2M 0 ![1, 2, 3] = ![3, 1, 2] ∧
    (![2, 3, 1] : Fin 3 → ℚ) ≠ ![3, 1, 2] := by
  refine ⟨?_, ?_, ?_, ?_⟩
  · show Except.ok _ = _
    congr 1
    ext r c
    fin_cases r <;> fin_cases c <;>
      simp [socsAxisVec, c2M, Matrix.vecHead, Matrix.vecTail]
  · funext i
    fin_cases i <;>
      simp [applyCalibration, socsVec3, c2M, Matrix.vecMul, Matrix.mulVec,
        Matrix.dotProduct, Fin.sum_univ_three]
  · funext i
    fin_cases i <;>
      simp [claimedCalibration, c2M, Matrix.mulVec, Matrix.dotProduct,
        Fin.sum_univ_three]
  · intro hc
    have := congrFun hc 0
    simp at this

/-- C2 (amended): for every SOCS map built from valid tokens, boresight
matrix, lever arm and raw point, the fixed calibration stage equals
`boresight · (socsMapᵀ · p) + leverArm`: the column-built SOCS matrix is
applied to `p` as a row-vector product (`p * M` in nalgebra), which is
its *transpose* acting as a left matrix-vector product — not the matrix
itself. -/
theorem c2_calibration_row_vector (x y z : List Char)
    (m boresight : Matrix (Fin 3) (Fin 3) ℚ) (leverArm p : Fin 3 → ℚ)
    (hm : socsMapNew x y z = .ok m) :
    applyCalibration boresight m leverArm p =
      boresight.mulVec (m.transpose.mulVec p) + leverArm := by
  rw [applyCalibration, socsVec3, Matrix.mulVec_transpose]

/-- Witness for C2 at the identity SOCS map and a concrete point. -/
theorem c2_witness :
    applyCalibration 1 c2M 0 ![1, 2, 3] =
      Matrix.mulVec 1 (Matrix.mulVec c2M.transpose ![1, 2, 3]) + 0 :=
  c2_calibration_row_vector ['y'] ['z'] ['x'] c2M 1 0 ![1, 2, 3]
    (by
      show Except.ok _ = _
      congr 1
      ext r c
      fin_cases r <;> fin_cases c <;>
        simp [socsAxisVec, c2M, Matrix.vecHead, Matrix.vecTail])

/-- Outcome of processing one line of a trajectory (.pos) file.
`panicked` models a Rust out-of-bounds `Vec` index; `parseFailed`
models a `try!(values[k].parse())` error on a present field.  The
record carries the seven parsed numbers in file order (time, latitude,
longitude, height, roll, pitch, heading); the degree→radian scaling
(`Radians::from_degrees`, a pure multiplication applied after a
successful parse) is omitted as it cannot affect which outcome
occurs. -/
inductive LineOutcome
  | skipped
  | record (t la lo h r p hd : ℚ)
  | parseFailed
  | panicked
deriving DecidableEq, Repr

/-- The loop body of `read_pos_file` (src/pos.rs lines 24-41) and of
`ImuGnss::read_from` (src/imu_gnss.rs lines 46-63) for a single line.
Each whitespace-separated field is given as `some v` when it parses as
a number and `none` when it does not (the parse itself is done by the
Rust standard library).  Lines with zero fields are skipped; otherwise
the code indexes `values[0]` … `values[6]` in order, where an index
beyond the field count is an out-of-bounds panic. -/
def processLine (fields : List (Option ℚ)) : LineOutcome :=
  if fields.length = 0 then .skipped
  else
    match fields[0]? with
    | none => .panicked
    | some none => .parseFailed
    | some (some t) =>
      match fields[1]? with
      | none => .panicked
      | some none => .parseFailed
      | some (some la) =>
        match fields[2]? with
        | none => .panicked
        | some none => .parseFailed
        | some (some lo) =>
          match fields[3]? with
          | none => .panicked
          | some none => .parseFailed
          | some (some h) =>
            match fields[4]? with
            | none => .panicked
            | some none => .parseFailed
            | some (some r) =>
              match fields[5]? with
              | none => .panicked
              | some none => .parseFailed
              | some (some p) =>
                match fields[6]? with
                | none => .panicked
                | some none => .parseFailed
                | some (some hd) => .record t la lo h r p hd

/-- C9, counterexample: a non-blank line with exactly one field that
does not parse as a number (e.g. `"abc"`): `values[0].parse()` fails
first and the function returns a parse error — it does not reach the
out-of-bounds index, so "any non-blank data line with one to six
fields panics" is too strong. -/
theorem c9_counterexample :
    List.length [(none : Option ℚ)] = 1 ∧
    processLine [(none : Option ℚ)] = .parseFailed ∧
    LineOutcome.parseFailed ≠ .panicked := by
  refine ⟨rfl, ?_, by decide⟩
  decide

/-- C9 (amended): for any non-blank data line with between one and six
whitespace-separated fields *each of which parses as a number*, the
reader indexes past the end of the field list — an out-of-bounds panic
— instead of returning an error; a non-parsing field may instead
produce a parse error first (see the counterexample), and only
zero-field lines are skipped as blank. -/
theorem c9_reader_panics (fields : List (Option ℚ))
    (h1 : 1 ≤ fields.length) (h6 : fields.length ≤ 6)
    (hp : ∀ x ∈ fields, x ≠ none) :
    processLine fields = .panicked := by
  rcases fields with _ | ⟨a, _ | ⟨b, _ | ⟨c, _ | ⟨d, _ | ⟨e, _ | ⟨f, rest⟩⟩⟩⟩⟩⟩
  · simp at h1
  · obtain ⟨va, rfl⟩ := Option.ne_none_iff_exists'.mp (hp a (by simp))
    simp [processLine]
  · obtain ⟨va, rfl⟩ := Option.ne_none_iff_exists'.mp (hp a (by simp))
    obtain ⟨vb, rfl⟩ := Option.ne_none_iff_exists'.mp (hp b (by simp))
    simp [processLine]
  · obtain ⟨va, rfl⟩ := Option.ne_none_iff_exists'.mp (hp a (by simp))
    obtain ⟨vb, rfl⟩ := Option.ne_none_iff_exists'.mp (hp b (by simp))
    obtain ⟨vc, rfl⟩ := Option.ne_none_iff_exists'.mp (hp c (by simp))
    simp [processLine]
  · obtain ⟨va, rfl⟩ := Option.ne_none_iff_exists'.mp (hp a (by simp))
    obtain ⟨vb, rfl⟩ := Option.ne_none_iff_exists'.mp (hp b (by simp))
    obtain ⟨vc, rfl⟩ := Option.ne_none_iff_exists'.mp (hp c (by simp))
    obtain ⟨vd, rfl⟩ := Option.ne_none_iff_exists'.mp (hp d (by simp))
    simp [processLine]
  · obtain ⟨va, rfl⟩ := Option.ne_none_iff_exists'.mp (hp a (by simp))
    obtain ⟨vb, rfl⟩ := Option.ne_none_iff_exists'.mp (hp b (by simp))
    obtain ⟨vc, rfl⟩ := Option.ne_none_iff_exists'.mp (hp c (by simp))
    obtain ⟨vd, rfl⟩ := Option.ne_none_iff_exists'.mp (hp d (by simp))
    obtain ⟨ve, rfl⟩ := Option.ne_none_iff_exists'.mp (hp e (by simp))
    simp [processLine]
  · have hrest : rest = [] := by
      simp only [List.length_cons] at h6
      have := List.length_eq_zero.mp (show rest.length = 0 by omega)
      exact this
    subst hrest
    obtain ⟨va, rfl⟩ := Option.ne_none_iff_exists'.mp (hp a (by simp))
    obtain ⟨vb, rfl⟩ := Option.ne_none_iff_exists'.mp (hp b (by simp))
    obtain ⟨vc, rfl⟩ := Option.ne_none_iff_exists'.mp (hp c (by simp))
    obtain ⟨vd, rfl⟩ := Option.ne_none_iff_exists'.mp (hp d (by simp))
    obtain ⟨ve, rfl⟩ := Option.ne_none_iff_exists'.mp (hp e (by simp))
    obtain ⟨vf, rfl⟩ := Option.ne_none_iff_exists'.mp (hp f (by simp))
    simp [processLine]

/-- Witness for C9: a three-field line of valid numbers panics. -/
theorem c9_witness :
    processLine [some 1, some 2, some 3] = .panicked :=
  c9_reader_panics [some 1, some 2, some 3] (by norm_num) (by norm_num)
    (by simp)

/-- Result of processing one chunk of points in the inner `for` loop of
`Georeferencer::georeference` (src/georef.rs lines 176-185):
the chunk was consumed and the outer loop continues (`next`), the point
limit was reached and the whole run returns `Ok` (`finished`), or a
per-point transform/sink error aborted the run (`failed`). -/
inductive ChunkStep (α ε : Type)
  | next (n : ℕ) (written : List α)
  | finished (written : List α)
  | failed (e : ε)

/-- The limit test `if let Some(limit) = self.limit { if npoints >=
limit { return Ok(()) } }` (src/georef.rs lines 180-184). -/
def limitReached (limit : Option ℕ) (n : ℕ) : Bool :=
  match limit with
  | none => false
  | some l => decide (l ≤ n)

/-- The inner `for` loop of `Georeferencer::georeference`: each point is
georeferenced (`g`, standing for `georeference_point` with its
interpolator), sunk (`s`), counted, and then the limit is tested.
`n` is the running `npoints` counter and `w` the list of points written
to the sink so far. -/
def processChunk {α ε : Type} (g : α → Except ε α) (s : α → Except ε Unit)
    (limit : Option ℕ) : List α → ℕ → List α → ChunkStep α ε
  | [], n, w => .next n w
  | p :: ps, n, w =>
    match g p with
    | .error e => .failed e
    | .ok q =>
      match s q with
      | .error e => .failed e
      | .ok _ =>
        if limitReached limit (n + 1) then .finished (w ++ [q])
        else processChunk g s limit ps (n + 1) (w ++ [q])

/-- Outcome of a `georeference` run.  `ok` carries the points written to
the sink.  `starved` marks the state in which the loop issues another
pull but the modelled response list is exhausted — i.e. the loop did
*not* terminate within the given source responses. -/
inductive RunOutcome (α ε : Type)
  | ok (written : List α)
  | fail (e : ε)
  | starved (written : List α)

/-- The chunk loop of `Georeferencer::georeference` (src/georef.rs
lines 170-188).  The source is modelled as the list of successive
responses to `source.source(chunk_size)`: `.error e` for a failed pull,
`.ok none` for end of stream (`None`, which `break`s the loop), and
`.ok (some pts)` for a chunk of points — note that an *empty* chunk
`Some(vec![])` does not break the loop. -/
def runLoop {α ε : Type} (g : α → Except ε α) (s : α → Except ε Unit)
    (limit : Option ℕ) :
    List (Except ε (Option (List α))) → ℕ → List α → RunOutcome α ε
  | [], _, w => .starved w
  | r :: rs, n, w =>
    match r with
    | .error e => .fail e
    | .ok none => .ok w
    | .ok (some pts) =>
      match processChunk g s limit pts n w with
      | .next n1 w1 => runLoop g s limit rs n1 w1
      | .finished w1 => .ok w1
      | .failed e => .fail e

/-- The run `Georeferencer::georeference` (src/georef.rs lines 165-188), from
the initial state `npoints = 0` and nothing written. -/
def georeference {α ε : Type} (g : α → Except ε α) (s : α → Except ε Unit)
    (limit : Option ℕ) (rs : List (Except ε (Option (List α)))) :
    RunOutcome α ε :=
  runLoop g s limit rs 0 []

/-- The number of points available from the source before its first
end-of-stream (or error) response. -/
def availablePoints {α ε : Type} :
    List (Except ε (Option (List α))) → ℕ
  | [] => 0
  | (Except.ok (some pts)) :: rs => pts.length + availablePoints rs
  | _ => 0

/-- When the per-point transform and the sink always succeed, a chunk is
processed without failure: either it is consumed (`next`) or the limit
is reached (`finished`). -/
theorem processChunk_no_fail {α ε : Type} (g : α → Except ε α)
    (s : α → Except ε Unit) (limit : Option ℕ)
    (hg : ∀ p, ∃ q, g p = .ok q) (hs : ∀ q, s q = .ok ()) :
    ∀ pts (n : ℕ) (w : List α),
      (∃ n1 w1, processChunk g s limit pts n w = .next n1 w1) ∨
      ∃ w1, processChunk g s limit pts n w = .finished w1 := by
  intro pts
  induction pts with
  | nil => intro n w; exact .inl ⟨n, w, rfl⟩
  | cons p ps ih =>
    intro n w
    obtain ⟨q, hq⟩ := hg p
    have hsq := hs q
    simp only [processChunk, hq, hsq]
    by_cases hl : limitReached limit (n + 1)
    · right
      exact ⟨w ++ [q], by rw [if_pos hl]⟩
    · rw [if_neg hl]
      exact ih (n + 1) (w ++ [q])

/-- Helper for C7: if every response is a successful pull and an
end-of-stream (`None`) response occurs, a run with total transform and
sink returns `Ok`. -/
theorem runLoop_none_ok {α ε : Type} (g : α → Except ε α)
    (s : α → Except ε Unit) (limit : Option ℕ)
    (hg : ∀ p, ∃ q, g p = .ok q) (hs : ∀ q, s q = .ok ()) :
    ∀ (rs : List (Except ε (Option (List α)))) (n : ℕ) (w : List α),
      (∀ r ∈ rs, ∃ c, r = .ok c) → Except.ok none ∈ rs →
      ∃ w1, runLoop g s limit rs n w = .ok w1 := by
  intro rs
  induction rs with
  | nil => intro n w _ hnone; simp at hnone
  | cons r rs ih =>
    intro n w hre hnone
    obtain ⟨c, rfl⟩ := hre r (List.mem_cons_self r rs)
    cases c with
    | none => exact ⟨w, by rw [runLoop]⟩
    | some pts =>
      have hnone' : Except.ok none ∈ rs := by
        rcases List.mem_cons.mp hnone with hh | ht
        · exact absurd hh.symm (by simp)
        · exact ht
      rcases processChunk_no_fail g s limit hg hs pts n w with
        ⟨n1, w1, hstep⟩ | ⟨w1, hstep⟩
      · obtain ⟨w2, hw2⟩ := ih n1 w1 (fun r hr => hre r (List.mem_cons_of_mem _ hr))
          hnone'
        exact ⟨w2, by rw [runLoop, hstep]; exact hw2⟩
      · exact ⟨w1, by rw [runLoop, hstep]⟩

/-- C7 (amended): the chunk loop terminates with success as soon as the
source yields an *absent* chunk (`None`), for any source whose pulls up
to that point succeed and whose points transform and sink without
error.  (An *empty* chunk does not end the loop — see the
counterexample.) -/
theorem c7_none_terminates {α ε : Type} (g : α → Except ε α)
    (s : α → Except ε Unit) (limit : Option ℕ)
    (rs : List (Except ε (Option (List α))))
    (hg : ∀ p, ∃ q, g p = .ok q) (hs : ∀ q, s q = .ok ())
    (hre : ∀ r ∈ rs, ∃ c, r = .ok c) (hnone : Except.ok none ∈ rs) :
    ∃ w, georeference g s limit rs = .ok w :=
  runLoop_none_ok g s limit hg hs rs 0 [] hre hnone

/-- A transform that always succeeds (used for witnesses). -/
def idOk : Unit → Except Unit Unit := fun p => .ok p

/-- A sink that always succeeds (used for witnesses). -/
def sinkOk : Unit → Except Unit Unit := fun _ => .ok ()

/-- C7, counterexample: a pull that returns an *empty* chunk
(`Some(vec![])`) does not terminate the loop — after consuming it the
loop pulls again (here: runs off the end of the modelled response list,
`starved`), instead of returning `Ok` as the claim states. -/
theorem c7_counterexample :
    georeference idOk sinkOk none [Except.ok (some ([] : List Unit))] =
      .starved [] ∧
    (RunOutcome.starved ([] : List Unit) : RunOutcome Unit Unit) ≠ .ok [] := by
  constructor
  · rfl
  · intro h
    exact RunOutcome.noConfusion h

/-- Witness for C7: a source whose single response is end-of-stream. -/
theorem c7_witness :
    ∃ w, georeference idOk sinkOk none
      [Except.ok (none : Option (List Unit))] = .ok w :=
  c7_none_terminates idOk sinkOk none [Except.ok none]
    (fun p => ⟨p, rfl⟩) (fun _ => rfl)
    (by intro r hr; simp at hr; exact ⟨none, hr⟩)
    (by simp)

/-- Counting behaviour of the inner loop under a limit `L`: writing
target `max 1 L` (the limit check runs only *after* a point is written
and counted, so even `L = 0` writes one point).  Starting below the
target, a chunk either reaches the target exactly (`finished`) or is
consumed whole (`next`), with the written list growing by exactly the
number of processed points. -/
theorem processChunk_count {α ε : Type} (g : α → Except ε α)
    (s : α → Except ε Unit) (L : ℕ)
    (hg : ∀ p, ∃ q, g p = .ok q) (hs : ∀ q, s q = .ok ()) :
    ∀ pts (n : ℕ) (w : List α), n < max 1 L →
      (if max 1 L ≤ n + pts.length
       then ∃ w1, processChunk g s (some L) pts n w = .finished w1 ∧
              w1.length = w.length + (max 1 L - n)
       else ∃ w1, processChunk g s (some L) pts n w =
              .next (n + pts.length) w1 ∧
              w1.length = w.length + pts.length) := by
  intro pts
  induction pts with
  | nil =>
    intro n w hn
    have hcond : ¬max 1 L ≤ n + List.length ([] : List α) := by
      simp only [List.length_nil, Nat.add_zero]
      omega
    rw [if_neg hcond]
    exact ⟨w, by simp [processChunk], by simp⟩
  | cons p ps ih =>
    intro n w hn
    obtain ⟨q, hq⟩ := hg p
    have hsq := hs q
    have hmax : max 1 L ≤ n + 1 ↔ L ≤ n + 1 := by
      rw [Nat.max_le]
      omega
    have hwq : (w ++ [q]).length = w.length + 1 := by simp
    by_cases hT : max 1 L ≤ n + 1
    · -- the point written now reaches the target
      have hstop : limitReached (some L) (n + 1) = true := by
        simp [limitReached, hmax.mp hT]
      have hcond : max 1 L ≤ n + List.length (p :: ps) := by
        simp only [List.length_cons]
        omega
      rw [if_pos hcond]
      refine ⟨w ++ [q], ?_, ?_⟩
      · simp only [processChunk, hq, hsq]
        rw [if_pos hstop]
      · rw [hwq]
        omega
    · have hgo : limitReached (some L) (n + 1) = false := by
        simp [limitReached]
        omega
      specialize ih (n + 1) (w ++ [q]) (by omega)
      by_cases hc : max 1 L ≤ n + 1 + ps.length
      · rw [if_pos hc] at ih
        obtain ⟨w1, hstep, hlen⟩ := ih
        have hcond : max 1 L ≤ n + List.length (p :: ps) := by
          simp only [List.length_cons]
          omega
        rw [if_pos hcond]
        refine ⟨w1, ?_, ?_⟩
        · simp only [processChunk, hq, hsq]
          rw [if_neg (by simp [hgo])]
          exact hstep
        · rw [hlen, hwq]
          omega
      · rw [if_neg hc] at ih
        obtain ⟨w1, hstep, hlen⟩ := ih
        have hcond : ¬max 1 L ≤ n + List.length (p :: ps) := by
          simp only [List.length_cons]
          omega
        rw [if_neg hcond]
        refine ⟨w1, ?_, ?_⟩
        · simp only [processChunk, hq, hsq]
          rw [if_neg (by simp [hgo])]
          rw [hstep]
          congr 1
          simp only [List.length_cons]
          omega
        · rw [hlen, hwq]
          simp only [List.length_cons]
          omega

/-- Counting behaviour of the chunk loop under a limit `L`: with enough
available points, the run returns `Ok` having written exactly
`max 1 L - n` further points. -/
theorem runLoop_count {α ε : Type} (g : α → Except ε α)
    (s : α → Except ε Unit) (L : ℕ)
    (hg : ∀ p, ∃ q, g p = .ok q) (hs : ∀ q, s q = .ok ()) :
    ∀ (rs : List (Except ε (Option (List α)))) (n : ℕ) (w : List α),
      (∀ r ∈ rs, ∀ e, r ≠ .error e) → n < max 1 L →
      max 1 L - n ≤ availablePoints rs →
      ∃ w1, runLoop g s (some L) rs n w = .ok w1 ∧
        w1.length = w.length + (max 1 L - n) := by
  intro rs
  induction rs with
  | nil =>
    intro n w _ hn havail
    simp only [availablePoints] at havail
    omega
  | cons r rs ih =>
    intro n w hre hn havail
    cases r with
    | error e => exact absurd rfl (hre (.error e) (List.mem_cons_self _ _) e)
    | ok c =>
      cases c with
      | none =>
        simp only [availablePoints] at havail
        omega
      | some pts =>
        have hav : availablePoints (Except.ok (some pts) :: rs) =
            pts.length + availablePoints rs := rfl
        have hstep := processChunk_count g s L hg hs pts n w hn
        by_cases hc : max 1 L ≤ n + pts.length
        · rw [if_pos hc] at hstep
          obtain ⟨w1, hpc, hlen⟩ := hstep
          exact ⟨w1, by rw [runLoop, hpc], hlen⟩
        · rw [if_neg hc] at hstep
          obtain ⟨w1, hpc, hlen⟩ := hstep
          obtain ⟨w2, hrun, hlen2⟩ := ih (n + pts.length) w1
            (fun r hr => hre r (List.mem_cons_of_mem _ hr))
            (by omega) (by rw [hav] at havail; omega)
          refine ⟨w2, by rw [runLoop, hpc]; exact hrun, ?_⟩
          rw [hlen2, hlen]
          omega

/-- C10: the point limit is checked only after a point has been
georeferenced, written and counted.  For a configured limit `L` and a
source offering at least `max 1 L` points before end of stream (with
error-free pulls, transform and sink), the run returns `Ok` having
written exactly `max 1 L` points: one point for `L = 0`, exactly `L`
points for `L ≥ 1`. -/
theorem c10_limit_after_write {α ε : Type} (g : α → Except ε α)
    (s : α → Except ε Unit) (L : ℕ)
    (rs : List (Except ε (Option (List α))))
    (hg : ∀ p, ∃ q, g p = .ok q) (hs : ∀ q, s q = .ok ())
    (hre : ∀ r ∈ rs, ∀ e, r ≠ .error e)
    (havail : max 1 L ≤ availablePoints rs) :
    ∃ w, georeference g s (some L) rs = .ok w ∧ w.length = max 1 L := by
  obtain ⟨w, hrun, hlen⟩ := runLoop_count g s L hg hs rs 0 []
    hre (by omega) (by omega)
  exact ⟨w, hrun, by simpa using hlen⟩

/-- Witness for C10: limit `2`, one chunk of three points — exactly two
are written. -/
theorem c10_witness :
    ∃ w, georeference idOk sinkOk (some 2)
      [Except.ok (some [(), (), ()])] = .ok w ∧ w.length = max 1 2 :=
  c10_limit_after_write idOk sinkOk 2 [Except.ok (some [(), (), ()])]
    (fun p => ⟨p, rfl⟩) (fun _ => rfl)
    (by
      intro r hr e
      simp at hr
      subst hr
      simp)
    (by norm_num [availablePoints])
